import Mathlib

/-!
Verification of the flow-accumulation core of `src/functionality.py`
(`calc_flow_dfs`, `calc_VQR`, `set_retention`).

The Python code is shallowly embedded as follows.

* A `networkx.DiGraph` is a `DGraph`: a node enumeration (`nodes`, in the
  graph's native iteration order), a directed edge list and an `area_ha`
  attribute per node.  Real/float arithmetic is modelled exactly over `ℚ`.
* `nx.dfs_successors(g.reverse(), source)` is `dfs_successors`: a depth-first
  search from the fixed outlet key over reversed edges, producing the
  dictionary mapping each visited node to its direct DFS-tree children, with
  keys in insertion order (a node's key is inserted before any key of its
  subtree).  The search is implemented by `dfsScan`, which returns the DFS
  forest (`RTree`) together with the visited list; the association list is
  read off the forest in preorder by `entriesF`.  A missing source raises a
  `KeyError`, modelled by `Except.error "KeyError"`.
* Numpy arrays aligned to the node enumeration are `List ℚ`; elementwise
  `np.maximum (a - b, 0)` is `List.zipWith (fun a b => max (a - b) 0)`,
  `vq[mask].sum()` over `mask = np.isin(nodes, cs)` is `maskSum`, and the
  fancy-indexed update `vq[np.where(nodes == element)] += x` is `flowStep`
  (node keys of a `networkx` graph are unique, so the matching index is the
  first index of the element).
-/

set_option maxHeartbeats 1000000

/-- The outlet key hardcoded at line 21 of `src/functionality.py`. -/
def outletKey : String := "alois-hamtod-weg"

/-- A directed graph as consumed by the Python code: node iteration order,
edge list, and per-node `area_ha` attribute. -/
structure DGraph where
  nodes : List String
  edges : List (String × String)
  area : String → ℚ

/-- Successors of `u` in `g.reverse()`: the sources of edges into `u`
(in edge-list order). -/
def revAdj (g : DGraph) (u : String) : List String :=
  (g.edges.filter (fun e => e.2 == u)).map (fun e => e.1)

mutual
/-- A rose tree recording a DFS tree discovered by the traversal. -/
inductive RTree where
  | node : String → RForest → RTree
/-- A forest of DFS trees (the subtrees of one node, in discovery order). -/
inductive RForest where
  | nil : RForest
  | cons : RTree → RForest → RForest
end

/-- Root label of a DFS tree. -/
def RTree.label : RTree → String
  | .node s _ => s

/-- Whether a forest is empty. -/
def RForest.isNil : RForest → Bool
  | .nil => true
  | .cons _ _ => false

/-- The labels of the roots of a forest (the DFS-tree children of the
parent node, in discovery order). -/
def RForest.labels : RForest → List String
  | .nil => []
  | .cons t rest => t.label :: rest.labels

mutual
/-- All labels of a DFS tree, in preorder (discovery order). -/
def preorderT : RTree → List String
  | .node v sf => v :: preorderF sf
/-- All labels of a DFS forest, in preorder (discovery order). -/
def preorderF : RForest → List String
  | .nil => []
  | .cons t rest => preorderT t ++ preorderF rest
end

mutual
/-- The `dfs_successors` dictionary entries contributed by one DFS tree:
the root paired with its children's labels (when it has children), then the
entries of the subtrees — keys in dictionary insertion order (a parent's
key precedes every key inside its subtrees). -/
def entriesT : RTree → List (String × List String)
  | .node v sf => (if sf.isNil then [] else [(v, sf.labels)]) ++ entriesF sf
/-- The `dfs_successors` dictionary entries of a DFS forest. -/
def entriesF : RForest → List (String × List String)
  | .nil => []
  | .cons t rest => entriesT t ++ entriesF rest
end

/-- Result of scanning a candidate list in the DFS: the forest of trees
rooted at the freshly visited candidates, and the updated visited list. -/
structure DfsOut where
  forest : RForest
  vis : List String

/-- Depth-first scan of a candidate list `l` with visited set `visited`:
each unvisited candidate `v` is marked visited and its adjacency `adj v` is
explored recursively before the remaining candidates are scanned.  `fuel`
bounds the depth of the recursion; every recursive call consumes one unit,
so the call tree of a scan over a graph is never cut off once the fuel
exceeds the total number of adjacency entries plus descents (the top-level
calls below pass `|nodes| + 2·|edges| + 2`, far above that bound). -/
def dfsScan (adj : String → List String) : ℕ → List String → List String → DfsOut
  | 0, _, visited => ⟨.nil, visited⟩
  | _+1, [], visited => ⟨.nil, visited⟩
  | fuel+1, v :: rest, visited =>
    if v ∈ visited then
      dfsScan adj fuel rest visited
    else
      let sub := dfsScan adj fuel (adj v) (v :: visited)
      let cont := dfsScan adj fuel rest sub.vis
      ⟨.cons (RTree.node v sub.forest) cont.forest, cont.vis⟩

/-- Fuel passed to `dfsScan` by the top-level traversal: enough that the
scan of a graph is never truncated. -/
def dfsFuel (g : DGraph) : ℕ :=
  g.nodes.length + 2 * g.edges.length + 2

/-- Model of `nx.dfs_successors(g.reverse(), source)` (line 21): DFS over reversed
edges from `source`; raises `KeyError` when `source` is not a node. -/
def dfs_successors (g : DGraph) (source : String) :
    Except String (List (String × List String)) :=
  if source ∈ g.nodes then
    let out := dfsScan (revAdj g) (dfsFuel g) (revAdj g source) [source]
    .ok ((if out.forest.isNil then [] else [(source, out.forest.labels)]) ++
      entriesF out.forest)
  else
    .error "KeyError"

/-- The visited list of the reversed-edge traversal from the outlet:
exactly the nodes the traversal reaches (the outlet plus every node
discovered from it). -/
def dfs_visited (g : DGraph) : List String :=
  (dfsScan (revAdj g) (dfsFuel g) (revAdj g outletKey) [outletKey]).vis

/-- Model of `calc_VQR` (lines 38-50): dictionary mapping each node to
`area_ha * precip * 10`, keys in node iteration order. -/
def calc_VQR (g : DGraph) (precip : ℚ) : List (String × ℚ) :=
  g.nodes.map (fun n => (n, g.area n * precip * 10))

/-- Line 28: `np.array([precip[n] for n in nodes])`, the per-node volume
vector aligned to the node enumeration (dictionary lookup in the
`calc_VQR` result). -/
def precipVec (g : DGraph) (precip : ℚ) : List ℚ :=
  g.nodes.map (fun n => ((calc_VQR g precip).lookup n).getD 0)

/-- Model of `vq[mask].sum()` where `mask = np.isin(nodes, cs)` (lines 33-34): the sum
of `vq` over the positions whose node is listed in `cs`. -/
def maskSum (nodes : List String) (vq : List ℚ) (cs : List String) : ℚ :=
  (((nodes.zip vq).filter (fun x => cs.contains x.1)).map Prod.snd).sum

/-- One iteration of the accumulation loop (lines 32-34): at the position of
the dictionary key `e.1`, add the clipped excess of its recorded
contributors' summed outflow over the remaining retention. -/
def flowStep (nodes : List String) (rem : List ℚ) (vq : List ℚ)
    (e : String × List String) : List ℚ :=
  vq.set (nodes.indexOf e.1)
    (vq.getD (nodes.indexOf e.1) 0 +
      max (maskSum nodes vq e.2 - rem.getD (nodes.indexOf e.1) 0) 0)

/-- The accumulation loop (line 31): fold `flowStep` over the processed
entry list. -/
def runFlow (nodes : List String) (rem : List ℚ) (order : List (String × List String))
    (vq : List ℚ) : List ℚ :=
  order.foldl (flowStep nodes rem) vq

/-- Model of `calc_flow_dfs` (lines 8-35).  `retention = None` defaults to the zero
vector; `psi` is accepted and ignored (unimplemented).  The `KeyError` of a
missing outlet propagates. -/
def calc_flow_dfs (g : DGraph) (precip : ℚ) (retention : Option (List ℚ))
    (psi : Option ℚ) : Except String (List ℚ) :=
  match dfs_successors g outletKey with
  | .error e => .error e
  | .ok order =>
    let nodes := g.nodes
    let ret := retention.getD (List.replicate nodes.length 0)
    let pv := precipVec g precip
    let vq := List.zipWith (fun p r => max (p - r) 0) pv ret
    let rem := List.zipWith (fun p r => max (r - p) 0) pv ret
    .ok (runFlow nodes rem order.reverse vq)

/-- Model of `set_retention` (lines 53-68): numpy fancy-indexed write
`retention[np.where(np.array(graph.nodes) == node)] = volume`; position `i`
is overwritten exactly when `i` indexes the node enumeration at `node`.
`retention = None` defaults to a fresh zero vector. -/
def set_retention (node : String) (volume : ℚ) (g : DGraph)
    (retention : Option (List ℚ)) : List ℚ :=
  let ret := retention.getD (List.replicate g.nodes.length 0)
  ret.mapIdx (fun i r => if g.nodes.get? i == some node then volume else r)

/-- Model of `calc_flow_dfs` with the caller's retention buffer threaded explicitly:
the second component is the content of the array the caller passed in, as it
stands when the call returns.  Line 30 (`retention = np.maximum(...)`) binds
the local name to a fresh array returned by `np.maximum` and line 34 writes
only into `vq` (itself freshly allocated by `np.maximum` at line 29), so no
operation of the source writes into the caller's buffer. -/
def calc_flow_dfs_buf (g : DGraph) (precip : ℚ) (retention : List ℚ)
    (psi : Option ℚ) : Except String (List ℚ × List ℚ) :=
  match dfs_successors g outletKey with
  | .error e => .error e
  | .ok order =>
    let nodes := g.nodes
    let pv := precipVec g precip
    let vq := List.zipWith (fun p r => max (p - r) 0) pv retention
    let rem := List.zipWith (fun p r => max (r - p) 0) pv retention
    .ok (runFlow nodes rem order.reverse vq, retention)

/-- The entry list produced by the traversal when the outlet is present
(the value inside `dfs_successors g outletKey`). -/
def dfsOrder (g : DGraph) : List (String × List String) :=
  let out := dfsScan (revAdj g) (dfsFuel g) (revAdj g outletKey) [outletKey]
  (if out.forest.isNil then [] else [(outletKey, out.forest.labels)]) ++
    entriesF out.forest

/-- The 3-node chain of the spec's concrete scenario: leaf `A` (1 ha) drains
into `B` (2 ha), which drains into the outlet (1 ha). -/
def chainG : DGraph :=
  ⟨["A", "B", "alois-hamtod-weg"], [("A", "B"), ("B", "alois-hamtod-weg")],
    fun n => if n = "A" then 1 else if n = "B" then 2 else 1⟩

/-- A two-node graph that does not contain the outlet key. -/
def noOutletG : DGraph :=
  ⟨["A", "B"], [("A", "B")], fun _ => 1⟩

/-- Membership of a subtree in a forest (at any depth). -/
inductive TreeIn : RTree → RForest → Prop where
  | head (t : RTree) (rest : RForest) : TreeIn t (.cons t rest)
  | tail {t : RTree} (t' : RTree) {rest : RForest} : TreeIn t rest → TreeIn t (.cons t' rest)
  | down {t : RTree} (v : String) {sf : RForest} (rest : RForest) :
      TreeIn t sf → TreeIn t (.cons (.node v sf) rest)

/-! ### Basic lemmas about vectors and masked sums -/

lemma lookup_map_self (f : String → ℚ) (l : List String) (n : String) (hn : n ∈ l) :
    (l.map (fun m => (m, f m))).lookup n = some (f n) := by
  induction l with
  | nil => cases hn
  | cons a t ih =>
    by_cases hna : n = a
    · subst hna; simp [List.lookup]
    · rcases List.mem_cons.1 hn with h | h
      · exact absurd h hna
      · have hb : (n == a) = false := beq_eq_false_iff_ne.2 hna
        simpa [List.lookup, hb] using ih h

lemma precipVec_eq (g : DGraph) (p : ℚ) :
    precipVec g p = g.nodes.map (fun n => g.area n * p * 10) := by
  unfold precipVec calc_VQR
  apply List.map_congr_left
  intro n hn
  rw [lookup_map_self _ _ _ hn]
  rfl

lemma getD_set_self (l : List ℚ) (i : ℕ) (x : ℚ) (h : i < l.length) :
    (l.set i x).getD i 0 = x := by
  simp [List.getD, List.getElem?_set_self, h]

lemma getD_set_ne (l : List ℚ) {i j : ℕ} (x : ℚ) (h : i ≠ j) :
    (l.set i x).getD j 0 = l.getD j 0 := by
  rw [List.getD_eq_getElem?_getD, List.getD_eq_getElem?_getD, List.getElem?_set_ne h]

lemma getD_nonneg {l : List ℚ} (h : ∀ x ∈ l, 0 ≤ x) (i : ℕ) : 0 ≤ l.getD i 0 := by
  rcases hlt : l[i]? with _ | x
  · simp [List.getD_eq_getElem?_getD, hlt]
  · have := List.getElem?_mem hlt
    simpa [List.getD_eq_getElem?_getD, hlt] using h x this

lemma maskSum_zip_nil (nodes : List String) (cs : List String) : maskSum nodes [] cs = 0 := by
  simp [maskSum]

lemma maskSum_nil (vq : List ℚ) (cs : List String) : maskSum [] vq cs = 0 := by
  simp [maskSum]

lemma maskSum_cons (n : String) (ns : List String) (v : ℚ) (vs : List ℚ) (cs : List String) :
    maskSum (n :: ns) (v :: vs) cs = (if n ∈ cs then v else 0) + maskSum ns vs cs := by
  by_cases h : n ∈ cs <;> simp [maskSum, List.filter_cons, h]

lemma maskSum_empty_cs (nodes : List String) (vq : List ℚ) : maskSum nodes vq [] = 0 := by
  simp [maskSum]

lemma maskSum_not_mem (c : String) (cs : List String) :
    ∀ (ns : List String) (vs : List ℚ), c ∉ ns →
      maskSum ns vs (c :: cs) = maskSum ns vs cs := by
  intro ns
  induction ns with
  | nil => intro vs _; simp [maskSum]
  | cons n ns ih =>
    intro vs hc
    cases vs with
    | nil => simp [maskSum_zip_nil]
    | cons v vs =>
      have hnc : n ≠ c := fun h => hc (by simp [h])
      rw [maskSum_cons, maskSum_cons, ih vs (fun h => hc (List.mem_cons_of_mem _ h))]
      have : (n ∈ c :: cs) ↔ (n ∈ cs) := by
        constructor
        · intro h; rcases List.mem_cons.1 h with h | h
          · exact absurd h hnc
          · exact h
        · exact List.mem_cons_of_mem _
      simp [this]

lemma maskSum_extract (c : String) (cs : List String) :
    ∀ (ns : List String) (vs : List ℚ), ns.Nodup → c ∈ ns → c ∉ cs →
      vs.length = ns.length →
      maskSum ns vs (c :: cs) = vs.getD (ns.indexOf c) 0 + maskSum ns vs cs := by
  intro ns
  induction ns with
  | nil => intro vs _ hc; cases hc
  | cons n ns ih =>
    intro vs hnd hc hcc hlen
    cases vs with
    | nil => simp at hlen
    | cons v vs =>
      by_cases hnc : n = c
      · subst hnc
        have hn : n ∉ ns := (List.nodup_cons.1 hnd).1
        rw [maskSum_cons, maskSum_cons, maskSum_not_mem _ _ _ _ hn,
          List.indexOf_cons_self]
        simp [hcc]
      · have hcns : c ∈ ns := by
          rcases List.mem_cons.1 hc with h | h
          · exact absurd h.symm hnc
          · exact h
        rw [maskSum_cons, maskSum_cons,
          ih vs (List.nodup_cons.1 hnd).2 hcns hcc (by simpa using hlen),
          List.indexOf_cons_ne _ (fun h => hnc h)]
        have : (n ∈ c :: cs) ↔ (n ∈ cs) := by
          constructor
          · intro h; rcases List.mem_cons.1 h with h | h
            · exact absurd h.symm (fun h => hnc h.symm)
            · exact h
          · exact List.mem_cons_of_mem _
        simp only [this, List.getD_cons_succ]
        ring

lemma maskSum_eq_sum (nodes : List String) (vq : List ℚ) (cs : List String)
    (hnd : nodes.Nodup) (hcs : cs.Nodup) (hsub : ∀ c ∈ cs, c ∈ nodes)
    (hlen : vq.length = nodes.length) :
    maskSum nodes vq cs = (cs.map (fun c => vq.getD (nodes.indexOf c) 0)).sum := by
  induction cs with
  | nil => simp [maskSum]
  | cons c cs ih =>
    have hcnd := List.nodup_cons.1 hcs
    rw [maskSum_extract c cs nodes vq hnd (hsub c (by simp)) hcnd.1 hlen]
    rw [ih hcnd.2 (fun x hx => hsub x (List.mem_cons_of_mem _ hx))]
    simp

/-! ### Pointwise comparison of vectors -/

lemma forall2_le_getD {a b : List ℚ} (h : List.Forall₂ (· ≤ ·) a b) (i : ℕ) :
    a.getD i 0 ≤ b.getD i 0 := by
  induction h generalizing i with
  | nil => simp
  | cons hxy _ ih =>
    cases i with
    | zero => simpa using hxy
    | succ j => simpa using ih j

lemma forall2_le_set {a b : List ℚ} (h : List.Forall₂ (· ≤ ·) a b) {x y : ℚ}
    (hxy : x ≤ y) : ∀ i : ℕ, List.Forall₂ (· ≤ ·) (a.set i x) (b.set i y) := by
  induction h with
  | nil => intro i; simp
  | cons hab htl ih =>
    intro i
    cases i with
    | zero => exact List.Forall₂.cons hxy htl
    | succ j => exact List.Forall₂.cons hab (ih j)

lemma maskSum_le (cs : List String) :
    ∀ (nodes : List String) {a b : List ℚ}, List.Forall₂ (· ≤ ·) a b →
      maskSum nodes a cs ≤ maskSum nodes b cs := by
  intro nodes
  induction nodes with
  | nil => intro a b _; simp [maskSum_nil]
  | cons n ns ih =>
    intro a b h
    cases h with
    | nil => simp [maskSum_zip_nil]
    | cons hxy htl =>
      rw [maskSum_cons, maskSum_cons]
      apply add_le_add _ (ih htl)
      split <;> simp [hxy]

lemma flowStep_le {nodes : List String} {remA remB vqA vqB : List ℚ}
    (hrem : List.Forall₂ (· ≤ ·) remB remA)
    (hvq : List.Forall₂ (· ≤ ·) vqA vqB) (e : String × List String) :
    List.Forall₂ (· ≤ ·) (flowStep nodes remA vqA e) (flowStep nodes remB vqB e) := by
  unfold flowStep
  apply forall2_le_set hvq
  apply add_le_add (forall2_le_getD hvq _)
  apply max_le_max _ le_rfl
  exact sub_le_sub (maskSum_le _ _ hvq) (forall2_le_getD hrem _)

lemma runFlow_le (nodes : List String) (order : List (String × List String)) :
    ∀ {remA remB vqA vqB : List ℚ},
      List.Forall₂ (· ≤ ·) remB remA → List.Forall₂ (· ≤ ·) vqA vqB →
      List.Forall₂ (· ≤ ·) (runFlow nodes remA order vqA) (runFlow nodes remB order vqB) := by
  induction order with
  | nil => intro _ _ _ _ _ h; exact h
  | cons e rest ih =>
    intro remA remB vqA vqB hrem hvq
    exact ih hrem (flowStep_le hrem hvq e)

/-! ### Non-negativity of the accumulation -/

lemma flowStep_nonneg {nodes : List String} {rem vq : List ℚ}
    (h : ∀ x ∈ vq, 0 ≤ x) (e : String × List String) :
    ∀ x ∈ flowStep nodes rem vq e, 0 ≤ x := by
  intro x hx
  rcases List.mem_or_eq_of_mem_set hx with hmem | hval
  · exact h x hmem
  · subst hval
    exact add_nonneg (getD_nonneg h _) (le_max_right _ _)

lemma runFlow_nonneg (nodes : List String) (rem : List ℚ)
    (order : List (String × List String)) :
    ∀ {vq : List ℚ}, (∀ x ∈ vq, 0 ≤ x) →
      ∀ x ∈ runFlow nodes rem order vq, 0 ≤ x := by
  induction order with
  | nil => intro _ h; exact h
  | cons e rest ih =>
    intro vq h
    exact ih (flowStep_nonneg h e)

lemma initVq_nonneg (pv : List ℚ) :
    ∀ (ret : List ℚ), ∀ x ∈ List.zipWith (fun p r => max (p - r) 0) pv ret, 0 ≤ x := by
  induction pv with
  | nil => intro ret x hx; simp at hx
  | cons p pv ih =>
    intro ret x hx
    cases ret with
    | nil => simp at hx
    | cons r ret =>
      rcases List.mem_cons.1 hx with h | h
      · subst h; exact le_max_right _ _
      · exact ih ret x h

lemma forall2_le_refl (l : List ℚ) : List.Forall₂ (· ≤ ·) l l :=
  List.forall₂_same.2 (fun _ _ => le_rfl)

lemma forall2_le_set_add (δ : ℚ) (hδ : 0 ≤ δ) :
    ∀ (R : List ℚ) (j : ℕ), List.Forall₂ (· ≤ ·) R (R.set j (R.getD j 0 + δ)) := by
  intro R
  induction R with
  | nil => intro j; simp
  | cons r R ih =>
    intro j
    cases j with
    | zero =>
      refine List.Forall₂.cons ?_ (forall2_le_refl R)
      simpa using le_add_of_nonneg_right (a := r) hδ
    | succ i => exact List.Forall₂.cons le_rfl (ih i)

lemma zipWith_init_anti {r r' : List ℚ} (h : List.Forall₂ (· ≤ ·) r r') :
    ∀ pv : List ℚ, List.Forall₂ (· ≤ ·)
      (List.zipWith (fun p x => max (p - x) 0) pv r')
      (List.zipWith (fun p x => max (p - x) 0) pv r) := by
  induction h with
  | nil => intro pv; simp
  | cons hxy _ ih =>
    intro pv
    cases pv with
    | nil => simp
    | cons p pv =>
      exact List.Forall₂.cons (max_le_max (sub_le_sub_left hxy p) le_rfl) (ih pv)

lemma zipWith_rem_mono {r r' : List ℚ} (h : List.Forall₂ (· ≤ ·) r r') :
    ∀ pv : List ℚ, List.Forall₂ (· ≤ ·)
      (List.zipWith (fun p x => max (x - p) 0) pv r)
      (List.zipWith (fun p x => max (x - p) 0) pv r') := by
  induction h with
  | nil => intro pv; simp
  | cons hxy _ ih =>
    intro pv
    cases pv with
    | nil => simp
    | cons p pv =>
      exact List.Forall₂.cons (max_le_max (sub_le_sub_right hxy p) le_rfl) (ih pv)

lemma zipWith_init_mono_p {p1 p2 : List ℚ} (h : List.Forall₂ (· ≤ ·) p1 p2) :
    ∀ ret : List ℚ, List.Forall₂ (· ≤ ·)
      (List.zipWith (fun p x => max (p - x) 0) p1 ret)
      (List.zipWith (fun p x => max (p - x) 0) p2 ret) := by
  induction h with
  | nil => intro ret; simp
  | cons hxy _ ih =>
    intro ret
    cases ret with
    | nil => simp
    | cons x ret =>
      exact List.Forall₂.cons (max_le_max (sub_le_sub_right hxy x) le_rfl) (ih ret)

lemma zipWith_rem_anti_p {p1 p2 : List ℚ} (h : List.Forall₂ (· ≤ ·) p1 p2) :
    ∀ ret : List ℚ, List.Forall₂ (· ≤ ·)
      (List.zipWith (fun p x => max (x - p) 0) p2 ret)
      (List.zipWith (fun p x => max (x - p) 0) p1 ret) := by
  induction h with
  | nil => intro ret; simp
  | cons hxy _ ih =>
    intro ret
    cases ret with
    | nil => simp
    | cons x ret =>
      exact List.Forall₂.cons (max_le_max (sub_le_sub_left hxy x) le_rfl) (ih ret)

lemma precipVec_mono (g : DGraph) {d1 d2 : ℚ} (harea : ∀ n, 0 ≤ g.area n)
    (hd : d1 ≤ d2) :
    List.Forall₂ (· ≤ ·) (precipVec g d1) (precipVec g d2) := by
  rw [precipVec_eq, precipVec_eq]
  induction g.nodes with
  | nil => simp
  | cons n ns ih =>
    refine List.Forall₂.cons ?_ ih
    have h10 : (0:ℚ) ≤ 10 := by norm_num
    calc g.area n * d1 * 10 ≤ g.area n * d2 * 10 :=
      mul_le_mul_of_nonneg_right (mul_le_mul_of_nonneg_left hd (harea n)) h10

/-! ### Unfolding `calc_flow_dfs` when the outlet is present -/

lemma dfs_successors_eq_ok (g : DGraph) (hout : outletKey ∈ g.nodes) :
    dfs_successors g outletKey = .ok (dfsOrder g) := by
  simp [dfs_successors, dfsOrder, hout]

lemma calc_flow_dfs_eq (g : DGraph) (d : ℚ) (retOpt : Option (List ℚ)) (psi : Option ℚ)
    (hout : outletKey ∈ g.nodes) :
    calc_flow_dfs g d retOpt psi =
      .ok (runFlow g.nodes
        (List.zipWith (fun p r => max (r - p) 0) (precipVec g d)
          (retOpt.getD (List.replicate g.nodes.length 0)))
        (dfsOrder g).reverse
        (List.zipWith (fun p r => max (p - r) 0) (precipVec g d)
          (retOpt.getD (List.replicate g.nodes.length 0)))) := by
  rw [calc_flow_dfs, dfs_successors_eq_ok g hout]

/-! ### Concrete evaluations on the spec's 3-node chain -/

lemma chainG_dfs : dfs_successors chainG outletKey
    = .ok [("alois-hamtod-weg", ["B"]), ("B", ["A"])] := rfl

lemma chain_eval_retention :
    calc_flow_dfs chainG 10 (some [0, 150, 0]) none = .ok [100, 150, 250] := by
  rw [calc_flow_dfs, chainG_dfs]
  simp [chainG, precipVec, calc_VQR, runFlow, flowStep, maskSum, List.lookup]
  norm_num [max_def]

lemma chain_eval_zeroR :
    calc_flow_dfs chainG 10 (some [0, 0, 0]) none = .ok [100, 300, 400] := by
  rw [calc_flow_dfs, chainG_dfs]
  simp [chainG, precipVec, calc_VQR, runFlow, flowStep, maskSum, List.lookup]
  norm_num [max_def]

lemma chain_eval_depth0 :
    calc_flow_dfs chainG 0 (some [0, 0, 0]) none = .ok [0, 0, 0] := by
  rw [calc_flow_dfs, chainG_dfs]
  simp [chainG, precipVec, calc_VQR, runFlow, flowStep, maskSum, List.lookup]

lemma chainG_area_nonneg : ∀ n, 0 ≤ chainG.area n := by
  intro n
  simp only [chainG]
  split_ifs <;> norm_num

lemma outlet_mem_chainG : outletKey ∈ chainG.nodes := by
  simp [chainG, outletKey]

/-! ### Claim theorems: C3, C4, C5, C6, C7, C10 -/

/-- Claim C3: on the 3-node chain `A (1 ha) → B (2 ha) → outlet (1 ha)` with
precipitation depth 10 mm and retention vector `(0, 150, 0)` aligned to
`(A, B, outlet)`, `calc_flow_dfs` returns outflows `(100, 150, 250)`. -/
theorem chain_scenario_c3 :
    calc_flow_dfs chainG 10 (some [0, 150, 0]) none = .ok [100, 150, 250] :=
  chain_eval_retention

/-- Claim C4: for every graph with a per-node area attribute and every scalar
precipitation depth, `calc_VQR` returns a mapping whose keys are exactly the
graph's nodes and which maps every node `n` to `area n * depth * 10`. -/
theorem calc_VQR_spec_c4 (g : DGraph) (d : ℚ) :
    (calc_VQR g d).map Prod.fst = g.nodes ∧
      ∀ n ∈ g.nodes, (calc_VQR g d).lookup n = some (g.area n * d * 10) := by
  constructor
  · rw [calc_VQR, List.map_map]
    exact List.map_id _
  · intro n hn
    exact lookup_map_self _ _ _ hn

/-- Witness for C4 on the concrete chain. -/
theorem calc_VQR_spec_c4_witness :
    (calc_VQR chainG 10).map Prod.fst = ["A", "B", "alois-hamtod-weg"] ∧
      (calc_VQR chainG 10).lookup "B" = some 200 := by
  have h := calc_VQR_spec_c4 chainG 10
  refine ⟨h.1, ?_⟩
  have hb := h.2 "B" (by simp [chainG])
  rw [hb]
  simp [chainG]
  norm_num

/-- Claim C5: for every graph rooted at the outlet key, every non-negative
depth with non-negative areas, and every retention vector, every entry of
the outflow vector returned by `calc_flow_dfs` is non-negative. -/
theorem calc_flow_dfs_nonneg_c5 (g : DGraph) (d : ℚ) (R : List ℚ)
    (psi : Option ℚ) (vq : List ℚ) (hout : outletKey ∈ g.nodes) (hd : 0 ≤ d)
    (harea : ∀ n, 0 ≤ g.area n)
    (hok : calc_flow_dfs g d (some R) psi = .ok vq) :
    ∀ x ∈ vq, 0 ≤ x := by
  rw [calc_flow_dfs_eq g d (some R) psi hout] at hok
  injection hok with h
  subst h
  exact runFlow_nonneg _ _ _ (initVq_nonneg _ _)

/-- Witness for C5 on the concrete chain (retention exceeding the
precipitation volume at `B`). -/
theorem calc_flow_dfs_nonneg_c5_witness : (0:ℚ) ≤ 150 :=
  calc_flow_dfs_nonneg_c5 chainG 10 [0, 150, 0] none [100, 150, 250]
    outlet_mem_chainG (by norm_num) chainG_area_nonneg chain_eval_retention
    150 (by simp)

/-- Claim C6: increasing a single retention entry by `δ ≥ 0` (everything else
fixed) never increases the outflow `calc_flow_dfs` computes at the outlet
node's position. -/
theorem calc_flow_dfs_retention_antitone_c6 (g : DGraph) (d : ℚ) (R : List ℚ)
    (psi : Option ℚ) (j : ℕ) (δ : ℚ) (vqA vqB : List ℚ)
    (hout : outletKey ∈ g.nodes) (hδ : 0 ≤ δ)
    (hA : calc_flow_dfs g d (some (R.set j (R.getD j 0 + δ))) psi = .ok vqA)
    (hB : calc_flow_dfs g d (some R) psi = .ok vqB) :
    vqA.getD (g.nodes.indexOf outletKey) 0 ≤
      vqB.getD (g.nodes.indexOf outletKey) 0 := by
  rw [calc_flow_dfs_eq _ _ _ _ hout] at hA hB
  injection hA with hA
  injection hB with hB
  subst hA; subst hB
  have hRR : List.Forall₂ (· ≤ ·) R (R.set j (R.getD j 0 + δ)) :=
    forall2_le_set_add δ hδ R j
  apply forall2_le_getD
  exact runFlow_le _ _ (zipWith_rem_mono hRR _) (zipWith_init_anti hRR _)

/-- Witness for C6 on the concrete chain: adding 150 m³ of retention at
position 1 (node `B`) lowers the outlet outflow from 400 to 250. -/
theorem calc_flow_dfs_retention_antitone_c6_witness :
    ([100, 150, 250] : List ℚ).getD (chainG.nodes.indexOf outletKey) 0 ≤
      ([100, 300, 400] : List ℚ).getD (chainG.nodes.indexOf outletKey) 0 := by
  refine calc_flow_dfs_retention_antitone_c6 chainG 10 [0, 0, 0] none 1 150
    [100, 150, 250] [100, 300, 400] outlet_mem_chainG (by norm_num) ?_
    chain_eval_zeroR
  have hset : ([0, 0, 0] : List ℚ).set 1 (([0, 0, 0] : List ℚ).getD 1 0 + 150)
      = [0, 150, 0] := by norm_num
  rw [hset]
  exact chain_eval_retention

/-- Claim C7: when the configured outlet key is not a node of the graph, the
traversal's `KeyError` propagates and `calc_flow_dfs` returns no outflow
vector. -/
theorem calc_flow_dfs_missing_outlet_c7 (g : DGraph) (d : ℚ)
    (retn : Option (List ℚ)) (psi : Option ℚ) (h : outletKey ∉ g.nodes) :
    calc_flow_dfs g d retn psi = .error "KeyError" := by
  simp [calc_flow_dfs, dfs_successors, h]

/-- Witness for C7 on a two-node graph without the outlet key. -/
theorem calc_flow_dfs_missing_outlet_c7_witness :
    calc_flow_dfs noOutletG 1 none none = .error "KeyError" :=
  calc_flow_dfs_missing_outlet_c7 noOutletG 1 none none
    (by simp [noOutletG, outletKey])

/-- Claim C10: with non-negative areas and a fixed retention vector, the
outflow computed by `calc_flow_dfs` is monotone non-decreasing in the
precipitation depth at every node position. -/
theorem calc_flow_dfs_depth_mono_c10 (g : DGraph) (R : List ℚ)
    (psi : Option ℚ) (d1 d2 : ℚ) (vq1 vq2 : List ℚ)
    (hout : outletKey ∈ g.nodes) (harea : ∀ n, 0 ≤ g.area n)
    (hd0 : 0 ≤ d1) (hd : d1 ≤ d2)
    (h1 : calc_flow_dfs g d1 (some R) psi = .ok vq1)
    (h2 : calc_flow_dfs g d2 (some R) psi = .ok vq2) :
    ∀ i : ℕ, vq1.getD i 0 ≤ vq2.getD i 0 := by
  rw [calc_flow_dfs_eq _ _ _ _ hout] at h1 h2
  injection h1 with h1
  injection h2 with h2
  subst h1; subst h2
  have hp := precipVec_mono g harea hd
  intro i
  apply forall2_le_getD
  exact runFlow_le _ _ (zipWith_rem_anti_p hp _) (zipWith_init_mono_p hp _)

/-- Witness for C10 on the concrete chain: depth 0 versus depth 10, at the
outlet position. -/
theorem calc_flow_dfs_depth_mono_c10_witness :
    ([0, 0, 0] : List ℚ).getD 2 0 ≤ ([100, 300, 400] : List ℚ).getD 2 0 :=
  calc_flow_dfs_depth_mono_c10 chainG [0, 0, 0] none 0 10 [0, 0, 0]
    [100, 300, 400] outlet_mem_chainG chainG_area_nonneg le_rfl (by norm_num)
    chain_eval_depth0 chain_eval_zeroR 2

/-! ### `set_retention`: claim C8 -/

lemma mapIdx_write_noop (node : String) (vol : ℚ) :
    ∀ (ns : List String) (ret : List ℚ), node ∉ ns →
      ret.mapIdx (fun i r => if ns.get? i == some node then vol else r) = ret := by
  intro ns
  induction ns with
  | nil =>
    intro ret _
    simp only [List.get?_nil]
    induction ret with
    | nil => simp
    | cons r rs ih =>
      rw [List.mapIdx_cons]
      simpa using congrArg (r :: ·) ih
  | cons n ns ih =>
    intro ret hmem
    cases ret with
    | nil => simp
    | cons r rs =>
      have hnn : n ≠ node := fun h => hmem (by simp [h])
      have hb : (some n == some node) = false := by
        simp [hnn]
      rw [List.mapIdx_cons]
      simp only [List.get?_cons_zero, hb]
      have := ih rs (fun h => hmem (List.mem_cons_of_mem _ h))
      simpa [List.get?_cons_succ] using congrArg (r :: ·) this

lemma mapIdx_write_set (node : String) (vol : ℚ) :
    ∀ (ns : List String) (ret : List ℚ) (k : ℕ), ns.Nodup →
      ret.length = ns.length → ns.get? k = some node →
      ret.mapIdx (fun i r => if ns.get? i == some node then vol else r)
        = ret.set k vol := by
  intro ns
  induction ns with
  | nil => intro ret k _ _ hk; simp at hk
  | cons n ns ih =>
    intro ret k hnd hlen hk
    cases ret with
    | nil => simp at hlen
    | cons r rs =>
      cases k with
      | zero =>
        have hn : n = node := by simpa using hk
        subst hn
        have hmem : n ∉ ns := (List.nodup_cons.1 hnd).1
        rw [List.mapIdx_cons]
        simp only [List.get?_cons_zero, beq_self_eq_true, if_true, List.set_cons_zero]
        have := mapIdx_write_noop n vol ns rs hmem
        simpa [List.get?_cons_succ] using congrArg (vol :: ·) this
      | succ j =>
        have hkj : ns.get? j = some node := by simpa using hk
        have hmem : node ∈ ns := by
          have := List.get?_eq_getElem? ns j
          exact List.getElem?_mem (by rw [← this]; exact hkj)
        have hnn : n ≠ node := fun h => (List.nodup_cons.1 hnd).1 (h ▸ hmem)
        have hb : (some n == some node) = false := by simp [hnn]
        rw [List.mapIdx_cons]
        simp only [List.get?_cons_zero, hb, if_false, List.set_cons_succ]
        have := ih rs j (List.nodup_cons.1 hnd).2 (by simpa using hlen) hkj
        simpa [List.get?_cons_succ] using congrArg (r :: ·) this

/-- Claim C8: `set_retention` overwrites exactly the position of the given
node key in the enumeration (allocating a fresh zero vector when none is
passed), and is a silent no-op when the key is absent. -/
theorem set_retention_spec_c8 (g : DGraph) (node : String) (vol : ℚ)
    (ret : List ℚ) (hnd : g.nodes.Nodup) (hlen : ret.length = g.nodes.length) :
    (∀ k, g.nodes.get? k = some node →
        set_retention node vol g (some ret) = ret.set k vol) ∧
      (node ∉ g.nodes → set_retention node vol g (some ret) = ret) ∧
      set_retention node vol g none
        = set_retention node vol g (some (List.replicate g.nodes.length 0)) := by
  refine ⟨?_, ?_, rfl⟩
  · intro k hk
    exact mapIdx_write_set node vol g.nodes ret k hnd hlen hk
  · intro hmem
    exact mapIdx_write_noop node vol g.nodes ret hmem

/-- Witness for C8 on the concrete chain: writing at key `B` updates only
position 1; writing at an absent key `Z` is a no-op. -/
theorem set_retention_spec_c8_witness :
    set_retention "B" 7 chainG (some [1, 2, 3]) = ([1, 2, 3] : List ℚ).set 1 7 ∧
      set_retention "Z" 7 chainG (some [1, 2, 3]) = [1, 2, 3] := by
  have hnd : chainG.nodes.Nodup := by simp [chainG]
  have hlen : ([1, 2, 3] : List ℚ).length = chainG.nodes.length := by
    simp [chainG]
  refine ⟨(set_retention_spec_c8 chainG "B" 7 [1, 2, 3] hnd hlen).1 1 ?_,
    (set_retention_spec_c8 chainG "Z" 7 [1, 2, 3] hnd hlen).2.1 ?_⟩
  · rfl
  · simp [chainG]

/-! ### The caller's retention buffer: claim C9 -/

/-- Claim C9: `calc_flow_dfs` never writes into the caller's retention array:
in the buffer-threaded embedding the buffer content at return equals the
passed-in vector, and the outflow component agrees with `calc_flow_dfs`. -/
theorem calc_flow_dfs_no_mutation_c9 (g : DGraph) (d : ℚ) (R : List ℚ)
    (psi : Option ℚ) :
    (∀ vq buf, calc_flow_dfs_buf g d R psi = .ok (vq, buf) → buf = R) ∧
      calc_flow_dfs_buf g d R psi
        = (calc_flow_dfs g d (some R) psi).map (fun vq => (vq, R)) := by
  unfold calc_flow_dfs_buf calc_flow_dfs
  cases hds : dfs_successors g outletKey with
  | error e => simp [Except.map]
  | ok order =>
    constructor
    · intro vq buf h
      simp only [Except.ok.injEq, Prod.mk.injEq] at h
      exact h.2.symm
    · simp [Except.map]

/-- Witness for C9 on the concrete chain. -/
theorem calc_flow_dfs_no_mutation_c9_witness : ([0, 150, 0] : List ℚ) = [0, 150, 0] := by
  have h := calc_flow_dfs_no_mutation_c9 chainG 10 [0, 150, 0] none
  refine h.1 [100, 150, 250] [0, 150, 0] ?_
  rw [h.2, chain_eval_retention]
  rfl

/-! ### Structural facts about DFS forests -/

lemma label_mem_preorderT (t : RTree) : t.label ∈ preorderT t := by
  cases t with
  | node v sf => simp [preorderT, RTree.label]

lemma labels_sublist : ∀ f : RForest, f.labels.Sublist (preorderF f)
  | .nil => by simp [RForest.labels, preorderF]
  | .cons (.node v sf) rest => by
    have ih := labels_sublist rest
    simp only [RForest.labels, preorderF, preorderT, RTree.label]
    refine List.Sublist.cons₂ _ ?_
    exact ih.trans (List.sublist_append_right _ _)

lemma labels_mem {f : RForest} {c : String} (h : c ∈ f.labels) : c ∈ preorderF f :=
  (labels_sublist f).mem h

lemma treein_label {t : RTree} {f : RForest} (h : TreeIn t f) :
    t.label ∈ preorderF f := by
  induction h with
  | head rest => exact List.mem_append_left _ (label_mem_preorderT t)
  | tail t' _ ih => exact List.mem_append_right _ ih
  | down v rest _ ih =>
    simp only [preorderF, preorderT]
    exact List.mem_append_left _ (List.mem_cons_of_mem _ ih)

lemma treein_segment {t : RTree} {f : RForest} (h : TreeIn t f) :
    (preorderT t).IsInfix (preorderF f) := by
  induction h with
  | head rest => exact ⟨[], preorderF rest, by simp [preorderF]⟩
  | tail t' _ ih =>
    obtain ⟨s, u, hsu⟩ := ih
    exact ⟨preorderT t' ++ s, u, by simp [preorderF, ← hsu]⟩
  | down v rest _ ih =>
    obtain ⟨s, u, hsu⟩ := ih
    exact ⟨v :: s, u ++ preorderF rest, by simp [preorderF, preorderT, ← hsu]⟩

lemma treein_pre_nodup {t : RTree} {f : RForest} (hnd : (preorderF f).Nodup)
    (h : TreeIn t f) : (preorderT t).Nodup :=
  hnd.sublist (treein_segment h).sublist

lemma pre_cons_decomp {w : String} {sf rest : RForest}
    (hnd : (preorderF (.cons (.node w sf) rest)).Nodup) :
    (preorderF sf).Nodup ∧ (preorderF rest).Nodup ∧ w ∉ preorderF sf ∧
      w ∉ preorderF rest ∧ ∀ x ∈ preorderF sf, x ∉ preorderF rest := by
  have h : ((w :: preorderF sf) ++ preorderF rest).Nodup := by
    simpa [preorderF, preorderT] using hnd
  rw [List.nodup_append] at h
  obtain ⟨h1, h2, h3⟩ := h
  rw [List.nodup_cons] at h1
  refine ⟨h1.2, h2, h1.1, ?_, ?_⟩
  · exact h3 (by simp)
  · intro x hx
    exact h3 (by simp [hx])

lemma treein_entry {v : String} {sf : RForest} {f : RForest}
    (h : TreeIn (.node v sf) f) (hni : sf.isNil = false) :
    (v, sf.labels) ∈ entriesF f := by
  induction h with
  | head rest =>
    simp only [entriesF, entriesT, hni]
    simp
  | tail t' _ ih => exact List.mem_append_right _ ih
  | down w rest _ ih =>
    simp only [entriesF, entriesT]
    exact List.mem_append_left _ (List.mem_append_right _ ih)

lemma entry_chars : ∀ (f : RForest), ∀ e ∈ entriesF f,
    ∃ sf : RForest, TreeIn (.node e.1 sf) f ∧ e.2 = sf.labels ∧ sf.isNil = false
  | .nil => by simp [entriesF]
  | .cons (.node w sf) rest => by
    intro e he
    simp only [entriesF, entriesT, List.mem_append] at he
    rcases he with (he | he) | he
    · rcases hni : sf.isNil with _ | _
      · rw [hni] at he
        simp at he
        subst he
        exact ⟨sf, TreeIn.head _ _, rfl, hni⟩
      · rw [hni] at he; simp at he
    · obtain ⟨sf', h1, h2, h3⟩ := entry_chars sf e he
      exact ⟨sf', TreeIn.down w rest h1, h2, h3⟩
    · obtain ⟨sf', h1, h2, h3⟩ := entry_chars rest e he
      exact ⟨sf', TreeIn.tail _ h1, h2, h3⟩

lemma treein_unique : ∀ (f : RForest), (preorderF f).Nodup →
    ∀ {v : String} {s1 s2 : RForest},
      TreeIn (.node v s1) f → TreeIn (.node v s2) f → s1 = s2
  | .nil => by intro _ v s1 s2 h1; cases h1
  | .cons (.node w sf) rest => by
    intro hnd v s1 s2 h1 h2
    obtain ⟨hnd_sf, hnd_rest, hw_sf, hw_rest, hdisj⟩ := pre_cons_decomp hnd
    cases h1 with
    | head _ =>
      cases h2 with
      | head _ => rfl
      | tail _ h2' => exact absurd (treein_label h2') hw_rest
      | down _ _ h2' => exact absurd (treein_label h2') hw_sf
    | tail _ h1' =>
      cases h2 with
      | head _ => exact absurd (treein_label h1') hw_rest
      | tail _ h2' => exact treein_unique rest hnd_rest h1' h2'
      | down _ _ h2' =>
        have hl1 : v ∈ preorderF rest := by
          simpa [RTree.label] using treein_label h1'
        have hl2 : v ∈ preorderF sf := by
          simpa [RTree.label] using treein_label h2'
        exact absurd hl1 (hdisj _ hl2)
    | down _ _ h1' =>
      cases h2 with
      | head _ => exact absurd (treein_label h1') hw_sf
      | tail _ h2' =>
        have hl1 : v ∈ preorderF sf := by
          simpa [RTree.label] using treein_label h1'
        have hl2 : v ∈ preorderF rest := by
          simpa [RTree.label] using treein_label h2'
        exact absurd hl2 (hdisj _ hl1)
      | down _ _ h2' => exact treein_unique sf hnd_sf h1' h2'

lemma entry_key_mem {f : RForest} {e : String × List String} (he : e ∈ entriesF f) :
    e.1 ∈ preorderF f := by
  obtain ⟨sf, h1, _, _⟩ := entry_chars f e he
  simpa [RTree.label] using treein_label h1

lemma entry_children_facts {f : RForest} (hnd : (preorderF f).Nodup)
    {e : String × List String} (he : e ∈ entriesF f) :
    e.2.Nodup ∧ ∀ c ∈ e.2, c ∈ preorderF f ∧ c ≠ e.1 := by
  obtain ⟨sf, h1, h2, _⟩ := entry_chars f e he
  have hpre : (preorderT (.node e.1 sf)).Nodup := treein_pre_nodup hnd h1
  have hpre' : (e.1 :: preorderF sf).Nodup := by simpa [preorderT] using hpre
  have hsfnd : (preorderF sf).Nodup := (List.nodup_cons.1 hpre').2
  have hnotmem : e.1 ∉ preorderF sf := (List.nodup_cons.1 hpre').1
  refine ⟨h2 ▸ hsfnd.sublist (labels_sublist sf), ?_⟩
  intro c hc
  rw [h2] at hc
  have hcp : c ∈ preorderF sf := labels_mem hc
  constructor
  · have hinf := treein_segment h1
    have : c ∈ preorderT (.node e.1 sf) := by
      simp [preorderT]
      exact Or.inr hcp
    exact hinf.sublist.mem this
  · intro hce
    subst hce
    exact hnotmem hcp

lemma entries_keys_sublist : ∀ f : RForest,
    ((entriesF f).map Prod.fst).Sublist (preorderF f)
  | .nil => by simp [entriesF, preorderF]
  | .cons (.node w sf) rest => by
    have ihs := entries_keys_sublist sf
    have ihr := entries_keys_sublist rest
    have hbase : (((entriesF sf).map Prod.fst) ++ ((entriesF rest).map Prod.fst)).Sublist
        (preorderF sf ++ preorderF rest) := ihs.append ihr
    simp only [entriesF, entriesT, List.map_append, preorderF, preorderT]
    rcases sf.isNil with _ | _
    · simp only [Bool.false_eq_true, if_false, List.map_cons, List.map_nil]
      rw [List.append_assoc]
      exact List.Sublist.cons₂ _ hbase
    · simp only [if_true, List.map_nil, List.nil_append]
      exact hbase.cons _

lemma entries_keys_nodup (f : RForest) (hnd : (preorderF f).Nodup) :
    ((entriesF f).map Prod.fst).Nodup :=
  hnd.sublist (entries_keys_sublist f)

lemma entries_pairwise : ∀ f : RForest, (preorderF f).Nodup →
    (entriesF f).Pairwise (fun e1 e2 => ∀ c ∈ e2.2, c ≠ e1.1)
  | .nil => by intro _; simp [entriesF]
  | .cons (.node w sf) rest => by
    intro hnd
    obtain ⟨hnd_sf, hnd_rest, hw_sf, hw_rest, hdisj⟩ := pre_cons_decomp hnd
    have ihs := entries_pairwise sf hnd_sf
    have ihr := entries_pairwise rest hnd_rest
    have hchild_sf : ∀ e ∈ entriesF sf, ∀ c ∈ e.2, c ∈ preorderF sf := by
      intro e he c hc
      exact ((entry_children_facts hnd_sf he).2 c hc).1
    have hchild_rest : ∀ e ∈ entriesF rest, ∀ c ∈ e.2, c ∈ preorderF rest := by
      intro e he c hc
      exact ((entry_children_facts hnd_rest he).2 c hc).1
    have hmid : ((entriesF sf) ++ (entriesF rest)).Pairwise
        (fun e1 e2 => ∀ c ∈ e2.2, c ≠ e1.1) := by
      rw [List.pairwise_append]
      refine ⟨ihs, ihr, ?_⟩
      intro e1 h1 e2 h2 c hc hce
      subst hce
      exact hdisj _ (entry_key_mem h1) (hchild_rest e2 h2 _ hc)
    simp only [entriesF, entriesT, List.append_assoc]
    rw [List.pairwise_append]
    refine ⟨?_, hmid, ?_⟩
    · rcases sf.isNil with _ | _ <;> simp
    · intro e1 h1 e2 h2 c hc hce
      subst hce
      have he1 : e1 = (w, sf.labels) := by
        rcases hni : sf.isNil with _ | _
        · rw [hni] at h1; simpa using h1
        · rw [hni] at h1; simp at h1
      have hw : e1.1 = w := by rw [he1]
      rw [hw] at hc
      rcases List.mem_append.1 h2 with h2 | h2
      · exact hw_sf (hchild_sf e2 h2 _ hc)
      · exact hw_rest (hchild_rest e2 h2 _ hc)

lemma leaf_not_key {f : RForest} (hnd : (preorderF f).Nodup) {v : String}
    (h : TreeIn (.node v .nil) f) : v ∉ (entriesF f).map Prod.fst := by
  intro hv
  obtain ⟨e, he, hek⟩ := List.mem_map.1 hv
  obtain ⟨sf, ht, _, hni⟩ := entry_chars f e he
  rw [hek] at ht
  have := treein_unique f hnd ht h
  subst this
  simp [RForest.isNil] at hni

/-! ### The DFS scan invariant -/

theorem dfs_invariant (adj : String → List String) (S : String → Prop)
    (hadj : ∀ u x, x ∈ adj u → S x) :
    ∀ (fuel : ℕ) (l visited : List String), (∀ x ∈ l, S x) →
      (dfsScan adj fuel l visited).vis.Perm
          (preorderF (dfsScan adj fuel l visited).forest ++ visited) ∧
        (preorderF (dfsScan adj fuel l visited).forest).Nodup ∧
        ∀ x ∈ preorderF (dfsScan adj fuel l visited).forest, x ∉ visited ∧ S x := by
  intro fuel
  induction fuel with
  | zero => intro l visited hl; simp [dfsScan, preorderF]
  | succ fuel ih =>
    intro l visited hl
    cases l with
    | nil => simp [dfsScan, preorderF]
    | cons v rest =>
      by_cases hv : v ∈ visited
      · have hres : dfsScan adj (fuel+1) (v :: rest) visited
            = dfsScan adj fuel rest visited := by
          rw [dfsScan, if_pos hv]
        rw [hres]
        exact ih rest visited (fun x hx => hl x (List.mem_cons_of_mem _ hx))
      · obtain ⟨permSb, nodupSb, freshSb⟩ :=
          ih (adj v) (v :: visited) (fun x hx => hadj v x hx)
        obtain ⟨permCt, nodupCt, freshCt⟩ :=
          ih rest (dfsScan adj fuel (adj v) (v :: visited)).vis
            (fun x hx => hl x (List.mem_cons_of_mem _ hx))
        set Sb := dfsScan adj fuel (adj v) (v :: visited) with hSb
        set Ct := dfsScan adj fuel rest Sb.vis with hCt
        have hres : dfsScan adj (fuel+1) (v :: rest) visited
            = ⟨.cons (RTree.node v Sb.forest) Ct.forest, Ct.vis⟩ := by
          rw [dfsScan, if_neg hv]
        rw [hres]
        have hpre : preorderF (RForest.cons (RTree.node v Sb.forest) Ct.forest)
            = v :: (preorderF Sb.forest ++ preorderF Ct.forest) := by
          simp [preorderF, preorderT]
        have hvSb : v ∈ Sb.vis := permSb.mem_iff.2 (by simp)
        have hsubSb : ∀ y ∈ visited, y ∈ Sb.vis := by
          intro y hy
          exact permSb.mem_iff.2 (by simp [hy])
        have hmemSb : ∀ x ∈ preorderF Sb.forest, x ∈ Sb.vis := by
          intro x hx
          exact permSb.mem_iff.2 (by simp [hx])
        refine ⟨?_, ?_, ?_⟩
        · show Ct.vis.Perm _
          rw [hpre, List.cons_append]
          have p1 : Ct.vis.Perm
              (preorderF Ct.forest ++ (preorderF Sb.forest ++ v :: visited)) :=
            permCt.trans (List.Perm.append_left _ permSb)
          have p2 : (preorderF Ct.forest ++ (preorderF Sb.forest ++ v :: visited)).Perm
              (v :: ((preorderF Ct.forest ++ preorderF Sb.forest) ++ visited)) := by
            rw [← List.append_assoc]
            exact List.perm_middle
          have p3 : ((preorderF Ct.forest ++ preorderF Sb.forest) ++ visited).Perm
              ((preorderF Sb.forest ++ preorderF Ct.forest) ++ visited) :=
            List.Perm.append_right visited List.perm_append_comm
          exact p1.trans (p2.trans (List.Perm.cons v p3))
        · show (preorderF (RForest.cons (RTree.node v Sb.forest) Ct.forest)).Nodup
          rw [hpre]
          refine List.nodup_cons.2 ⟨?_, List.nodup_append.2 ⟨nodupSb, nodupCt, ?_⟩⟩
          · intro hmem
            rcases List.mem_append.1 hmem with h | h
            · exact (freshSb v h).1 (by simp)
            · exact (freshCt v h).1 hvSb
          · intro x hxA hxB
            exact (freshCt x hxB).1 (hmemSb x hxA)
        · show ∀ x ∈ preorderF (RForest.cons (RTree.node v Sb.forest) Ct.forest), _
          rw [hpre]
          intro x hx
          rcases List.mem_cons.1 hx with h | h
          · subst h
            exact ⟨hv, hl x (by simp)⟩
          · rcases List.mem_append.1 h with h | h
            · exact ⟨fun hxx => (freshSb x h).1 (List.mem_cons_of_mem _ hxx),
                (freshSb x h).2⟩
            · exact ⟨fun hxx => (freshCt x h).1 (hsubSb x hxx), (freshCt x h).2⟩

/-! ### Characterisation of the accumulation fold -/

lemma flowStep_length (nodes : List String) (rem vq : List ℚ) (e : String × List String) :
    (flowStep nodes rem vq e).length = vq.length := by
  simp [flowStep]

lemma foldrFlow_length (nodes : List String) (rem : List ℚ) :
    ∀ (order : List (String × List String)) (vq0 : List ℚ),
      (order.foldr (fun e vq => flowStep nodes rem vq e) vq0).length = vq0.length := by
  intro order
  induction order with
  | nil => intro vq0; rfl
  | cons e rest ih =>
    intro vq0
    rw [List.foldr_cons, flowStep_length, ih]

lemma runFlow_reverse_foldr (nodes : List String) (rem : List ℚ)
    (order : List (String × List String)) (vq0 : List ℚ) :
    runFlow nodes rem order.reverse vq0
      = order.foldr (fun e vq => flowStep nodes rem vq e) vq0 := by
  rw [runFlow, List.foldl_reverse]

lemma getD_indexOf {l : List String} {p : String} (hp : p ∈ l) :
    l.getD (l.indexOf p) "" = p := by
  have h := List.indexOf_lt_length.2 hp
  rw [List.getD_eq_getElem l "" h]
  exact List.getElem_indexOf h

lemma ne_indexOf {nodes : List String} {x p : String} (hx : x ∈ nodes)
    (hp : p ∈ nodes) (hne : x ≠ p) : nodes.indexOf x ≠ nodes.indexOf p :=
  fun heq => hne ((List.indexOf_inj hx hp).1 heq)

lemma lookup_some_of_mem :
    ∀ {order : List (String × List String)}, (order.map Prod.fst).Nodup →
      ∀ {p : String} {cs : List String}, (p, cs) ∈ order →
        order.lookup p = some cs := by
  intro order
  induction order with
  | nil => intro _ p cs h; cases h
  | cons e rest ih =>
    obtain ⟨p1, cs1⟩ := e
    intro hnd p cs h
    have hnd' : (p1 :: rest.map Prod.fst).Nodup := by simpa using hnd
    rcases List.mem_cons.1 h with heq | hmem
    · injection heq with h1 h2
      subst h1; subst h2
      simp [List.lookup]
    · have hkey : p ∈ rest.map Prod.fst := List.mem_map.2 ⟨(p, cs), hmem, rfl⟩
      have hne : p ≠ p1 := by
        intro hc; subst hc; exact (List.nodup_cons.1 hnd').1 hkey
      have hb : (p == p1) = false := beq_eq_false_iff_ne.2 hne
      simp only [List.lookup, hb]
      exact ih (List.nodup_cons.1 hnd').2 hmem

lemma lookup_none_of_not_mem :
    ∀ {order : List (String × List String)} {p : String},
      p ∉ order.map Prod.fst → order.lookup p = none := by
  intro order
  induction order with
  | nil => intro p _; rfl
  | cons e rest ih =>
    obtain ⟨p1, cs1⟩ := e
    intro p h
    have hne : p ≠ p1 := fun hc => h (by simp [hc])
    have hb : (p == p1) = false := beq_eq_false_iff_ne.2 hne
    simp only [List.lookup, hb]
    exact ih (fun hc => h (by simp; exact Or.inr (by simpa using hc)))

lemma mem_of_lookup_some :
    ∀ {order : List (String × List String)} {p : String} {cs : List String},
      order.lookup p = some cs → (p, cs) ∈ order := by
  intro order
  induction order with
  | nil => intro p cs h; simp [List.lookup] at h
  | cons e rest ih =>
    obtain ⟨p1, cs1⟩ := e
    intro p cs h
    by_cases hpe : p = p1
    · subst hpe
      simp [List.lookup] at h
      simp [h]
    · have hb : (p == p1) = false := beq_eq_false_iff_ne.2 hpe
      simp only [List.lookup, hb] at h
      exact List.mem_cons_of_mem _ (ih h)

theorem foldr_flow_char (nodes : List String) (rem vq0 : List ℚ)
    (hnd : nodes.Nodup) (hlen : vq0.length = nodes.length) :
    ∀ order : List (String × List String),
      (order.map Prod.fst).Nodup →
      order.Pairwise (fun e1 e2 => ∀ c ∈ e2.2, c ≠ e1.1) →
      (∀ e ∈ order, e.1 ∈ nodes ∧ e.2.Nodup ∧ ∀ c ∈ e.2, c ∈ nodes ∧ c ≠ e.1) →
      (∀ e ∈ order,
          (order.foldr (fun e vq => flowStep nodes rem vq e) vq0).getD
              (nodes.indexOf e.1) 0
            = vq0.getD (nodes.indexOf e.1) 0
              + max ((e.2.map (fun c =>
                  (order.foldr (fun e vq => flowStep nodes rem vq e) vq0).getD
                    (nodes.indexOf c) 0)).sum
                - rem.getD (nodes.indexOf e.1) 0) 0) ∧
      (∀ k, k < nodes.length → nodes.getD k "" ∉ order.map Prod.fst →
        (order.foldr (fun e vq => flowStep nodes rem vq e) vq0).getD k 0
          = vq0.getD k 0) := by
  intro order
  induction order with
  | nil =>
    intro _ _ _
    exact ⟨by simp, fun k _ _ => rfl⟩
  | cons e rest ih =>
    obtain ⟨p, cs⟩ := e
    intro hkeys hpair hmem
    have hkeys' : (p :: rest.map Prod.fst).Nodup := by simpa using hkeys
    have hpnotin : p ∉ rest.map Prod.fst := (List.nodup_cons.1 hkeys').1
    have hkeysrest : (rest.map Prod.fst).Nodup := (List.nodup_cons.1 hkeys').2
    have hpairhead : ∀ e2 ∈ rest, ∀ c ∈ e2.2, c ≠ p := (List.pairwise_cons.1 hpair).1
    have hpairrest := (List.pairwise_cons.1 hpair).2
    have hmemhead := hmem (p, cs) (by simp)
    have hp : p ∈ nodes := hmemhead.1
    have hcsnd : cs.Nodup := hmemhead.2.1
    have hcssub : ∀ c ∈ cs, c ∈ nodes := fun c hc => (hmemhead.2.2 c hc).1
    have hcsne : ∀ c ∈ cs, c ≠ p := fun c hc => (hmemhead.2.2 c hc).2
    have hmemrest : ∀ e ∈ rest,
        e.1 ∈ nodes ∧ e.2.Nodup ∧ ∀ c ∈ e.2, c ∈ nodes ∧ c ≠ e.1 :=
      fun e he => hmem e (List.mem_cons_of_mem _ he)
    obtain ⟨ih1, ih2⟩ := ih hkeysrest hpairrest hmemrest
    set FR := rest.foldr (fun e vq => flowStep nodes rem vq e) vq0 with hFR
    have hcons : ((p, cs) :: rest).foldr (fun e vq => flowStep nodes rem vq e) vq0
        = FR.set (nodes.indexOf p)
            (FR.getD (nodes.indexOf p) 0
              + max (maskSum nodes FR cs - rem.getD (nodes.indexOf p) 0) 0) := by
      rw [List.foldr_cons, hFR]
      rfl
    have hFRlen : FR.length = nodes.length := by
      rw [hFR, foldrFlow_length, hlen]
    have hip : nodes.indexOf p < nodes.length := List.indexOf_lt_length.2 hp
    have hipFR : nodes.indexOf p < FR.length := by rw [hFRlen]; exact hip
    have huntouched : ∀ x, x ∈ nodes → x ≠ p →
        (((p, cs) :: rest).foldr (fun e vq => flowStep nodes rem vq e) vq0).getD
            (nodes.indexOf x) 0 = FR.getD (nodes.indexOf x) 0 := by
      intro x hx hxp
      rw [hcons]
      exact getD_set_ne _ _ (Ne.symm (ne_indexOf hx hp hxp))
    have hmask : maskSum nodes FR cs
        = (cs.map (fun c => FR.getD (nodes.indexOf c) 0)).sum :=
      maskSum_eq_sum nodes FR cs hnd hcsnd hcssub hFRlen
    have hResP : FR.getD (nodes.indexOf p) 0 = vq0.getD (nodes.indexOf p) 0 :=
      ih2 (nodes.indexOf p) hip (by rw [getD_indexOf hp]; exact hpnotin)
    refine ⟨?_, ?_⟩
    · intro e he
      rcases List.mem_cons.1 he with heq | hmemr
      · subst heq
        have hL : (((p, cs) :: rest).foldr (fun e vq => flowStep nodes rem vq e)
              vq0).getD (nodes.indexOf p) 0
            = vq0.getD (nodes.indexOf p) 0
              + max (maskSum nodes FR cs - rem.getD (nodes.indexOf p) 0) 0 := by
          rw [hcons, getD_set_self _ _ _ hipFR, hResP]
        have hRmap : cs.map (fun c =>
              (((p, cs) :: rest).foldr (fun e vq => flowStep nodes rem vq e)
                vq0).getD (nodes.indexOf c) 0)
            = cs.map (fun c => FR.getD (nodes.indexOf c) 0) :=
          List.map_congr_left
            (fun c hc => huntouched c (hcssub c hc) (hcsne c hc))
        rw [hL, hRmap, hmask]
      · obtain ⟨p', cs'⟩ := e
        have hmr := hmemrest (p', cs') hmemr
        have hp' : p' ∈ nodes := hmr.1
        have hp'ne : p' ≠ p := by
          intro hc
          exact hpnotin (hc ▸ List.mem_map.2 ⟨(p', cs'), hmemr, rfl⟩)
        have h1 := huntouched p' hp' hp'ne
        have h2 := ih1 (p', cs') hmemr
        have h3 : cs'.map (fun c =>
              (((p, cs) :: rest).foldr (fun e vq => flowStep nodes rem vq e)
                vq0).getD (nodes.indexOf c) 0)
            = cs'.map (fun c => FR.getD (nodes.indexOf c) 0) :=
          List.map_congr_left (fun c hc =>
            huntouched c ((hmr.2.2 c hc).1) (hpairhead (p', cs') hmemr c hc))
        rw [h1, h3]
        exact h2
    · intro k hk hknot
      have hknot' : nodes.getD k "" ≠ p ∧ nodes.getD k "" ∉ rest.map Prod.fst := by
        constructor
        · intro hc; exact hknot (by rw [hc]; simp)
        · intro hc
          exact hknot (by simp only [List.map_cons]; exact List.mem_cons_of_mem _ hc)
      have hkne : nodes.indexOf p ≠ k := by
        intro hc
        exact hknot'.1 (by rw [← hc, getD_indexOf hp])
      rw [hcons, getD_set_ne _ _ hkne]
      exact ih2 k hk hknot'.2

/-! ### Indexed views of the initial vectors -/

lemma precipVec_length (g : DGraph) (d : ℚ) :
    (precipVec g d).length = g.nodes.length := by
  simp [precipVec]

lemma getD_zipWith (f : ℚ → ℚ → ℚ) (a b : List ℚ) (k : ℕ)
    (hka : k < a.length) (hkb : k < b.length) :
    (List.zipWith f a b).getD k 0 = f (a.getD k 0) (b.getD k 0) := by
  have hk : k < (List.zipWith f a b).length := by
    rw [List.length_zipWith]
    exact lt_min hka hkb
  rw [List.getD_eq_getElem _ _ hk, List.getD_eq_getElem _ _ hka,
    List.getD_eq_getElem _ _ hkb, List.getElem_zipWith]

lemma map_getD (f : String → ℚ) (l : List String) (k : ℕ) (hk : k < l.length) :
    (l.map f).getD k 0 = f (l.getD k "") := by
  have hk' : k < (l.map f).length := by simpa using hk
  rw [List.getD_eq_getElem _ _ hk', List.getD_eq_getElem _ _ hk, List.getElem_map]

lemma precipVec_getD (g : DGraph) (d : ℚ) (k : ℕ) (hk : k < g.nodes.length) :
    (precipVec g d).getD k 0 = g.area (g.nodes.getD k "") * d * 10 := by
  rw [precipVec_eq]
  exact map_getD _ _ _ hk

lemma indexOf_getD (l : List String) (hnd : l.Nodup) (k : ℕ) (hk : k < l.length) :
    l.indexOf (l.getD k "") = k := by
  rw [List.getD_eq_getElem _ _ hk]
  exact List.indexOf_getElem hnd k hk

lemma lookup_isSome_of_mem_keys :
    ∀ {order : List (String × List String)} {p : String},
      p ∈ order.map Prod.fst → ∃ cs, order.lookup p = some cs := by
  intro order
  induction order with
  | nil => intro p h; simp at h
  | cons e rest ih =>
    obtain ⟨p1, cs1⟩ := e
    intro p h
    by_cases hpe : p = p1
    · subst hpe
      exact ⟨cs1, by simp [List.lookup]⟩
    · have hb : (p == p1) = false := beq_eq_false_iff_ne.2 hpe
      have h' : p ∈ rest.map Prod.fst := by
        rcases (by simpa using h : p = p1 ∨ ∃ x, (p, x) ∈ rest) with h | ⟨x, hx⟩
        · exact absurd h hpe
        · exact List.mem_map.2 ⟨(p, x), hx, rfl⟩
      obtain ⟨cs, hcs⟩ := ih h'
      exact ⟨cs, by simp only [List.lookup, hb]; exact hcs⟩

/-! ### Well-formedness of the traversal's entry list -/

lemma revAdj_sub (g : DGraph)
    (hedge : ∀ e ∈ g.edges, e.1 ∈ g.nodes ∧ e.2 ∈ g.nodes) :
    ∀ u x, x ∈ revAdj g u → x ∈ g.nodes := by
  intro u x hx
  simp only [revAdj, List.mem_map] at hx
  obtain ⟨e, he, hex⟩ := hx
  exact hex ▸ (hedge e (List.mem_of_mem_filter he)).1

lemma dfsOrder_facts (g : DGraph) (hnd : g.nodes.Nodup)
    (hedge : ∀ e ∈ g.edges, e.1 ∈ g.nodes ∧ e.2 ∈ g.nodes)
    (hout : outletKey ∈ g.nodes) :
    ((dfsOrder g).map Prod.fst).Nodup ∧
      (dfsOrder g).Pairwise (fun e1 e2 => ∀ c ∈ e2.2, c ≠ e1.1) ∧
      ∀ e ∈ dfsOrder g, e.1 ∈ g.nodes ∧ e.2.Nodup ∧
        ∀ c ∈ e.2, c ∈ g.nodes ∧ c ≠ e.1 := by
  obtain ⟨hperm, hprend, hfresh⟩ :=
    dfs_invariant (revAdj g) (fun x => x ∈ g.nodes) (revAdj_sub g hedge)
      (dfsFuel g) (revAdj g outletKey) [outletKey]
      (fun x hx => revAdj_sub g hedge _ x hx)
  set F := (dfsScan (revAdj g) (dfsFuel g) (revAdj g outletKey) [outletKey]).forest
    with hF
  have hord : dfsOrder g
      = (if F.isNil then [] else [(outletKey, F.labels)]) ++ entriesF F := rfl
  have houtF : outletKey ∉ preorderF F := fun hc => (hfresh _ hc).1 (by simp)
  have hpreN : ∀ x ∈ preorderF F, x ∈ g.nodes := fun x hx => (hfresh x hx).2
  have hkeysE : ((entriesF F).map Prod.fst).Nodup := entries_keys_nodup F hprend
  have hpairE := entries_pairwise F hprend
  have hmemE : ∀ e ∈ entriesF F, e.1 ∈ g.nodes ∧ e.2.Nodup ∧
      ∀ c ∈ e.2, c ∈ g.nodes ∧ c ≠ e.1 := by
    intro e he
    obtain ⟨hcnd, hch⟩ := entry_children_facts hprend he
    exact ⟨hpreN _ (entry_key_mem he), hcnd,
      fun c hc => ⟨hpreN _ (hch c hc).1, (hch c hc).2⟩⟩
  have hlabnd : F.labels.Nodup := hprend.sublist (labels_sublist F)
  have hlabmem : ∀ c ∈ F.labels, c ∈ g.nodes ∧ c ≠ outletKey := by
    intro c hc
    have := labels_mem hc
    exact ⟨hpreN _ this, fun hco => houtF (hco ▸ this)⟩
  rw [hord]
  rcases hni : F.isNil with _ | _
  · simp only [Bool.false_eq_true, if_false, List.singleton_append]
    refine ⟨?_, ?_, ?_⟩
    · rw [List.map_cons]
      show (outletKey :: (entriesF F).map Prod.fst).Nodup
      refine List.nodup_cons.2 ⟨?_, hkeysE⟩
      intro hc
      obtain ⟨e, he, hek⟩ := List.mem_map.1 hc
      exact houtF (hek ▸ entry_key_mem he)
    · refine List.pairwise_cons.2 ⟨?_, hpairE⟩
      intro e2 he2 c hc hco
      have hcm := ((entry_children_facts hprend he2).2 c hc).1
      have hceq : c = outletKey := by simpa using hco
      exact houtF (hceq ▸ hcm)
    · intro e he
      rcases List.mem_cons.1 he with heq | hmem
      · subst heq
        exact ⟨hout, hlabnd, hlabmem⟩
      · exact hmemE e hmem
  · simp only [if_true, List.nil_append]
    exact ⟨hkeysE, hpairE, hmemE⟩

/-! ### Claim C1: per-node characterisation of the final outflow -/

/-- Claim C1: for every DAG rooted at the outlet key, depth and aligned
retention vector, the final outflow at position `k` equals the local term
`max(P - R, 0)` plus — exactly when the node is recorded with direct
upstream contributors by the reversed-edge traversal — the clipped excess
`max(sum of the contributors' final outflows - max(R - P, 0), 0)`; a node
with no recorded contributors keeps exactly the local term. -/
theorem calc_flow_dfs_node_char_c1 (g : DGraph) (d : ℚ) (R : List ℚ)
    (psi : Option ℚ) (order : List (String × List String)) (vq : List ℚ)
    (hnd : g.nodes.Nodup)
    (hedge : ∀ e ∈ g.edges, e.1 ∈ g.nodes ∧ e.2 ∈ g.nodes)
    (hout : outletKey ∈ g.nodes)
    (hlen : R.length = g.nodes.length)
    (horder : dfs_successors g outletKey = .ok order)
    (hok : calc_flow_dfs g d (some R) psi = .ok vq)
    (k : ℕ) (hk : k < g.nodes.length) :
    vq.getD k 0
      = max (g.area (g.nodes.getD k "") * d * 10 - R.getD k 0) 0
        + match order.lookup (g.nodes.getD k "") with
          | some cs => max ((cs.map (fun c => vq.getD (g.nodes.indexOf c) 0)).sum
              - max (R.getD k 0 - g.area (g.nodes.getD k "") * d * 10) 0) 0
          | none => 0 := by
  rw [dfs_successors_eq_ok g hout] at horder
  injection horder with horder
  subst horder
  rw [calc_flow_dfs_eq _ _ _ _ hout] at hok
  injection hok with hok
  subst hok
  simp only [Option.getD_some, runFlow_reverse_foldr]
  obtain ⟨hkeysO, hpairO, hmemO⟩ := dfsOrder_facts g hnd hedge hout
  have hlenpv : (precipVec g d).length = g.nodes.length := precipVec_length g d
  have hlen0 : (List.zipWith (fun p r => max (p - r) 0) (precipVec g d) R).length
      = g.nodes.length := by
    rw [List.length_zipWith, hlenpv, hlen]
    exact min_self _
  obtain ⟨char1, char2⟩ :=
    foldr_flow_char g.nodes (List.zipWith (fun p r => max (r - p) 0) (precipVec g d) R)
      (List.zipWith (fun p r => max (p - r) 0) (precipVec g d) R)
      hnd hlen0 (dfsOrder g) hkeysO hpairO hmemO
  have hkidx : g.nodes.indexOf (g.nodes.getD k "") = k := indexOf_getD g.nodes hnd k hk
  have hvq0k : (List.zipWith (fun p r => max (p - r) 0) (precipVec g d) R).getD k 0
      = max (g.area (g.nodes.getD k "") * d * 10 - R.getD k 0) 0 := by
    rw [getD_zipWith _ _ _ k (by rw [hlenpv]; exact hk) (by rw [hlen]; exact hk),
      precipVec_getD g d k hk]
  have hremk : (List.zipWith (fun p r => max (r - p) 0) (precipVec g d) R).getD k 0
      = max (R.getD k 0 - g.area (g.nodes.getD k "") * d * 10) 0 := by
    rw [getD_zipWith _ _ _ k (by rw [hlenpv]; exact hk) (by rw [hlen]; exact hk),
      precipVec_getD g d k hk]
  rcases hlk : (dfsOrder g).lookup (g.nodes.getD k "") with _ | cs
  · have hnot : g.nodes.getD k "" ∉ (dfsOrder g).map Prod.fst := by
      intro hc
      obtain ⟨cs, hcs⟩ := lookup_isSome_of_mem_keys hc
      rw [hlk] at hcs
      cases hcs
    have hval := char2 k hk hnot
    rw [hval, hvq0k]
    simp
  · have hmem' : (g.nodes.getD k "", cs) ∈ dfsOrder g := mem_of_lookup_some hlk
    have hchar := char1 (g.nodes.getD k "", cs) hmem'
    simp only [hkidx] at hchar
    rw [hchar, hvq0k, hremk]

/-- Witness for C1: on the concrete chain with retention 150 at `B`
(position 1), the characterised value at position 1 is 150. -/
theorem calc_flow_dfs_node_char_c1_witness :
    ([100, 150, 250] : List ℚ).getD 1 0 = 150 := by
  have h := calc_flow_dfs_node_char_c1 chainG 10 [0, 150, 0] none
    [("alois-hamtod-weg", ["B"]), ("B", ["A"])] [100, 150, 250]
    (by decide) (by decide) outlet_mem_chainG (by simp [chainG])
    chainG_dfs chain_eval_retention 1 (by simp [chainG])
  rw [h]
  simp [chainG, List.lookup]
  norm_num [max_def]

/-! ### Claim C2: conservation of mass with zero retention -/

lemma getD_replicate_zero (n i : ℕ) : (List.replicate n (0:ℚ)).getD i 0 = 0 := by
  rcases lt_or_ge i n with h | h
  · rw [List.getD_eq_getElem _ _ (by simpa using h)]
    simp
  · rw [List.getD_eq_getElem?_getD, List.getElem?_eq_none (by simpa using h)]
    rfl

theorem forest_sum (nodes : List String) (final : List ℚ) (P : String → ℚ) :
    ∀ f : RForest,
      (∀ v sf, TreeIn (RTree.node v sf) f →
        final.getD (nodes.indexOf v) 0
          = P v + (sf.labels.map (fun c => final.getD (nodes.indexOf c) 0)).sum) →
      (f.labels.map (fun c => final.getD (nodes.indexOf c) 0)).sum
        = ((preorderF f).map P).sum
  | .nil => by intro _; simp [RForest.labels, preorderF]
  | .cons (.node v sf) rest => by
    intro H
    have h1 : final.getD (nodes.indexOf v) 0
        = P v + (sf.labels.map (fun c => final.getD (nodes.indexOf c) 0)).sum :=
      H v sf (TreeIn.head _ _)
    have h2 := forest_sum nodes final P sf
      (fun w sf' hw => H w sf' (TreeIn.down v rest hw))
    have h3 := forest_sum nodes final P rest
      (fun w sf' hw => H w sf' (TreeIn.tail _ hw))
    simp only [RForest.labels, preorderF, preorderT, RTree.label, List.map_cons,
      List.sum_cons, List.map_append, List.sum_append]
    rw [h1, h2, h3]

/-- Claim C2: with the all-zero retention vector, non-negative depth and
areas, the outflow at the outlet position equals the sum of the per-node
precipitation volumes `area * depth * 10` over all nodes reached by the
reversed-edge traversal from the outlet. -/
theorem calc_flow_dfs_conservation_c2 (g : DGraph) (d : ℚ) (psi : Option ℚ)
    (vq : List ℚ)
    (hnd : g.nodes.Nodup)
    (hedge : ∀ e ∈ g.edges, e.1 ∈ g.nodes ∧ e.2 ∈ g.nodes)
    (hout : outletKey ∈ g.nodes)
    (hd : 0 ≤ d) (harea : ∀ n, 0 ≤ g.area n)
    (hok : calc_flow_dfs g d (some (List.replicate g.nodes.length 0)) psi
      = .ok vq) :
    vq.getD (g.nodes.indexOf outletKey) 0
      = ((dfs_visited g).map (fun n => g.area n * d * 10)).sum := by
  rw [calc_flow_dfs_eq _ _ _ _ hout] at hok
  injection hok with hok
  subst hok
  simp only [Option.getD_some, runFlow_reverse_foldr]
  obtain ⟨hperm, hprend, hfresh⟩ :=
    dfs_invariant (revAdj g) (fun x => x ∈ g.nodes) (revAdj_sub g hedge)
      (dfsFuel g) (revAdj g outletKey) [outletKey]
      (fun x hx => revAdj_sub g hedge _ x hx)
  obtain ⟨hkeysO, hpairO, hmemO⟩ := dfsOrder_facts g hnd hedge hout
  set R0 := List.replicate g.nodes.length (0:ℚ) with hR0
  set pv := precipVec g d with hpv
  set vq0 := List.zipWith (fun p r => max (p - r) 0) pv R0 with hvq0
  set rem := List.zipWith (fun p r => max (r - p) 0) pv R0 with hrem
  set F := (dfsScan (revAdj g) (dfsFuel g) (revAdj g outletKey) [outletKey]).forest
    with hF
  set final := (dfsOrder g).foldr (fun e vq => flowStep g.nodes rem vq e) vq0
    with hfinal
  have hlenpv : pv.length = g.nodes.length := precipVec_length g d
  have hlenR0 : R0.length = g.nodes.length := List.length_replicate _ _
  have hlen0 : vq0.length = g.nodes.length := by
    rw [hvq0, List.length_zipWith, hlenpv, hlenR0]
    exact min_self _
  obtain ⟨char1, char2⟩ :=
    foldr_flow_char g.nodes rem vq0 hnd hlen0 (dfsOrder g) hkeysO hpairO hmemO
  have hvq0nn : ∀ x ∈ vq0, 0 ≤ x := by
    rw [hvq0]; exact initVq_nonneg pv R0
  have hfinnn : ∀ x ∈ final, 0 ≤ x := by
    rw [hfinal, ← runFlow_reverse_foldr]
    exact runFlow_nonneg _ _ _ hvq0nn
  have hP : ∀ n, (0:ℚ) ≤ g.area n * d * 10 :=
    fun n => mul_nonneg (mul_nonneg (harea n) hd) (by norm_num)
  have hpvD : ∀ i, i < g.nodes.length →
      pv.getD i 0 = g.area (g.nodes.getD i "") * d * 10 := by
    intro i hi
    rw [hpv]
    exact precipVec_getD g d i hi
  have hR0D : ∀ i, R0.getD i 0 = 0 := by
    intro i
    rw [hR0]
    exact getD_replicate_zero _ _
  have hremD : ∀ i, rem.getD i 0 = 0 := by
    intro i
    rcases lt_or_ge i g.nodes.length with h | h
    · rw [hrem, getD_zipWith _ _ _ i (by rw [hlenpv]; exact h)
        (by rw [hlenR0]; exact h), hR0D, hpvD i h]
      simp only [zero_sub]
      rw [max_eq_right]
      simp [hP]
    · rw [hrem, List.getD_eq_default]
      rw [List.length_zipWith, hlenpv, hlenR0, min_self]
      exact h
  have hvq0D : ∀ v, v ∈ g.nodes →
      vq0.getD (g.nodes.indexOf v) 0 = g.area v * d * 10 := by
    intro v hv
    have hiv : g.nodes.indexOf v < g.nodes.length := List.indexOf_lt_length.2 hv
    rw [hvq0, getD_zipWith _ _ _ _ (by rw [hlenpv]; exact hiv)
      (by rw [hlenR0]; exact hiv), hR0D, hpvD _ hiv, getD_indexOf hv, sub_zero]
    exact max_eq_left (hP v)
  have hfreshout : ∀ x ∈ preorderF F, x ∈ g.nodes ∧ x ≠ outletKey :=
    fun x hx => ⟨(hfresh x hx).2, fun hc => (hfresh x hx).1 (by simp [hc])⟩
  have hordF : dfsOrder g
      = (if F.isNil then [] else [(outletKey, F.labels)]) ++ entriesF F := rfl
  have hsum_nn : ∀ cs : List String,
      0 ≤ (cs.map (fun c => final.getD (g.nodes.indexOf c) 0)).sum := by
    intro cs
    apply List.sum_nonneg
    intro x hx
    obtain ⟨c, _, hcx⟩ := List.mem_map.1 hx
    exact hcx ▸ getD_nonneg hfinnn _
  have H : ∀ v sf, TreeIn (RTree.node v sf) F →
      final.getD (g.nodes.indexOf v) 0
        = g.area v * d * 10
          + (sf.labels.map (fun c => final.getD (g.nodes.indexOf c) 0)).sum := by
    intro v sf htin
    have hvpre : v ∈ preorderF F := by
      simpa [RTree.label] using treein_label htin
    have hv : v ∈ g.nodes := (hfreshout v hvpre).1
    have hvne : v ≠ outletKey := (hfreshout v hvpre).2
    have hiv : g.nodes.indexOf v < g.nodes.length := List.indexOf_lt_length.2 hv
    rcases hni : sf.isNil with _ | _
    · have hentry : (v, sf.labels) ∈ entriesF F := treein_entry htin hni
      have hmemord : (v, sf.labels) ∈ dfsOrder g := by
        rw [hordF]
        exact List.mem_append_right _ hentry
      have hc := char1 (v, sf.labels) hmemord
      rw [hremD, sub_zero, max_eq_left (hsum_nn _)] at hc
      rw [hc, hvq0D v hv]
    · have hsfnil : sf = .nil := by
        cases sf with
        | nil => rfl
        | cons t r => simp [RForest.isNil] at hni
      subst hsfnil
      have hnkey : v ∉ (entriesF F).map Prod.fst := leaf_not_key hprend htin
      have hnotkeys : g.nodes.getD (g.nodes.indexOf v) ""
          ∉ (dfsOrder g).map Prod.fst := by
        rw [getD_indexOf hv, hordF, List.map_append]
        intro hc
        rcases List.mem_append.1 hc with hc | hc
        · rcases hni2 : F.isNil with _ | _
          · rw [hni2] at hc
            simp at hc
            exact hvne hc
          · rw [hni2] at hc
            simp at hc
        · exact hnkey hc
      have hval := char2 (g.nodes.indexOf v) hiv hnotkeys
      rw [hval, hvq0D v hv]
      simp [RForest.labels]
  have hFS := forest_sum g.nodes final (fun n => g.area n * d * 10) F H
  have hiout : g.nodes.indexOf outletKey < g.nodes.length :=
    List.indexOf_lt_length.2 hout
  have htop : final.getD (g.nodes.indexOf outletKey) 0
      = g.area outletKey * d * 10
        + (F.labels.map (fun c => final.getD (g.nodes.indexOf c) 0)).sum := by
    rcases hni : F.isNil with _ | _
    · have hmemord : (outletKey, F.labels) ∈ dfsOrder g := by
        rw [hordF, hni]
        simp
      have hc := char1 (outletKey, F.labels) hmemord
      rw [hremD, sub_zero, max_eq_left (hsum_nn _)] at hc
      rw [hc, hvq0D outletKey hout]
    · have hFnil : F = .nil := by
        cases hF2 : F with
        | nil => rfl
        | cons t r => rw [hF2] at hni; simp [RForest.isNil] at hni
      have hnotkeys : g.nodes.getD (g.nodes.indexOf outletKey) ""
          ∉ (dfsOrder g).map Prod.fst := by
        rw [getD_indexOf hout, hordF, hFnil]
        simp [entriesF, RForest.isNil]
      have hval := char2 (g.nodes.indexOf outletKey) hiout hnotkeys
      rw [hval, hvq0D outletKey hout, hFnil]
      simp [RForest.labels]
  have hpermvis : (dfs_visited g).Perm (preorderF F ++ [outletKey]) := hperm
  have hpermsum : ((dfs_visited g).map (fun n => g.area n * d * 10)).sum
      = ((preorderF F).map (fun n => g.area n * d * 10)).sum
        + g.area outletKey * d * 10 := by
    rw [(hpermvis.map (fun n => g.area n * d * 10)).sum_eq, List.map_append]
    simp
  rw [htop, hFS, hpermsum]
  ring

/-- Witness for C2 on the concrete chain with zero retention: outlet
outflow 400 equals the summed precipitation volumes 100 + 200 + 100. -/
theorem calc_flow_dfs_conservation_c2_witness :
    ([100, 300, 400] : List ℚ).getD (chainG.nodes.indexOf outletKey) 0
      = ((dfs_visited chainG).map (fun n => chainG.area n * 10 * 10)).sum :=
  calc_flow_dfs_conservation_c2 chainG 10 none [100, 300, 400]
    (by decide) (by decide) outlet_mem_chainG (by norm_num) chainG_area_nonneg
    chain_eval_zeroR
